import Mathlib

/-!
# Shallow embedding of the Tetris simulation core (`src/tetris.py`)

The board occupancy mapping (Python dict `locked` from `(x, y)` cell
coordinates to RGB colors) is modelled as a function `Int × Int → Option Color`;
dict assignment and deletion become pointwise function updates.  Pure helper
functions (`shape_cells`, `valid_space`, `make_grid`, `clear_lines`) and the
methods of `Piece` and `Tetris` are translated definition by definition.
Mutation of `self` becomes explicit state passing on `GameState`; the
`random.choice` piece generator becomes an explicit stream `bag : Nat → PieceType`;
real-number arithmetic on the fall interval is modelled exactly over `ℚ`.
-/

-- ---------- Configuration ----------

def COLUMNS : Int := 10

def ROWS : Int := 20

abbrev Color := Nat × Nat × Nat

def COLORS : List Color :=
  [(0, 240, 240), (0, 0, 240), (240, 160, 0), (240, 240, 0),
   (0, 240, 0), (160, 0, 240), (240, 0, 0)]

-- The occupancy mapping: Python dict `locked_positions`.
abbrev Board := Int × Int → Option Color

/-- `locked[p] = c` (dict assignment). -/
def dictSet (b : Board) (p : Int × Int) (c : Color) : Board :=
  fun q => if q = p then some c else b q

/-- `del locked[p]` / `locked.pop(p)` (dict deletion). -/
def dictDel (b : Board) (p : Int × Int) : Board :=
  fun q => if q = p then none else b q

-- ---------- Tetromino shapes ----------

inductive PieceType
  | I | J | L | O | S | T | Z
deriving DecidableEq

open PieceType

/-- The `TETROMINOES` table of rotation states, verbatim from the source. -/
def TETROMINOES : PieceType → List (List String)
  | I => [["0000",
           "1111",
           "0000",
           "0000"],
          ["0010",
           "0010",
           "0010",
           "0010"]]
  | J => [["100",
           "111",
           "000"],
          ["011",
           "010",
           "010"],
          ["000",
           "111",
           "001"],
          ["010",
           "010",
           "110"]]
  | L => [["001",
           "111",
           "000"],
          ["010",
           "010",
           "011"],
          ["000",
           "111",
           "100"],
          ["110",
           "010",
           "010"]]
  | O => [["11",
           "11"]]
  | S => [["011",
           "110",
           "000"],
          ["010",
           "011",
           "001"]]
  | T => [["010",
           "111",
           "000"],
          ["010",
           "011",
           "010"],
          ["000",
           "111",
           "010"],
          ["010",
           "110",
           "010"]]
  | Z => [["110",
           "011",
           "000"],
          ["001",
           "011",
           "010"]]

def PIECE_KEYS : List PieceType := [I, J, L, O, S, T, Z]

-- ---------- Helper functions ----------

/-- `shape_cells(shape, offset_x, offset_y)`: the occupied cells of a shape
translated by the offsets, in source iteration order. -/
def shape_cells (shape : List String) (offset_x offset_y : Int) : List (Int × Int) :=
  (shape.enum.map (fun yrow =>
    yrow.2.toList.enum.filterMap (fun xch =>
      if xch.2 = '1' then some (offset_x + (xch.1 : Int), offset_y + (yrow.1 : Int))
      else none))).flatten

/-- `range(ROWS)` as a list of integer row indices. -/
def rowList : List Int := (List.range ROWS.toNat).map Int.ofNat

/-- `range(COLUMNS)` as a list of integer column indices. -/
def colList : List Int := (List.range COLUMNS.toNat).map Int.ofNat

/-- `make_grid(locked_positions)`: dense derived view of the mapping,
`None` outside `[0, COLUMNS) × [0, ROWS)`. -/
def make_grid (locked : Board) : Int → Int → Option Color := fun y x =>
  if 0 ≤ y ∧ y < ROWS ∧ 0 ≤ x ∧ x < COLUMNS then locked (x, y) else none

/-- `valid_space(shape, offset_x, offset_y, locked)`. -/
def valid_space (shape : List String) (offset_x offset_y : Int) (locked : Board) : Bool :=
  (shape_cells shape offset_x offset_y).all fun c =>
    if c.1 < 0 ∨ COLUMNS ≤ c.1 ∨ ROWS ≤ c.2 then false
    else if 0 ≤ c.2 ∧ (locked c).isSome then false
    else true

/-- `max(...)` on a Python list (callers only use it on nonempty lists). -/
def listMax : List Int → Int
  | [] => 0
  | h :: t => t.foldl max h

/-- `sum(1 for cleared in lines_to_clear if y < cleared)`: the shift amount of
row `y`, the number of cleared rows strictly below it. -/
def shiftOf (cleared : List Int) (y : Int) : Nat :=
  (cleared.filter fun c => y < c).length

/-- The inner deletion loop of `clear_lines`:
`for x in range(COLUMNS): if (x, row) in locked: del locked[(x, row)]`. -/
def delRow (b : Board) (row : Int) : Board :=
  colList.foldl (fun bb x => if (bb (x, row)).isSome then dictDel bb (x, row) else bb) b

/-- The per-row shift step of `clear_lines`:
`shift = ...; if shift > 0: for x in range(COLUMNS): if (x, y) in locked:
locked[(x, y + shift)] = locked.pop((x, y))`. -/
def shiftRow (cleared : List Int) (b : Board) (y : Int) : Board :=
  let shift : Int := shiftOf cleared y
  if 0 < shift then
    colList.foldl (fun bb x =>
      match bb (x, y) with
      | some v => dictSet (dictDel bb (x, y)) (x, y + shift) v
      | none => bb) b
  else b

/-- `clear_lines(grid, locked)`: returns the number of cleared rows and the
mapping after deletion and gravity collapse. -/
def clear_lines (grid : Int → Int → Option Color) (locked : Board) : Nat × Board :=
  let lines_to_clear := rowList.filter fun y => colList.all fun x => (grid y x).isSome
  if lines_to_clear = [] then (0, locked)
  else
    let afterDel := lines_to_clear.reverse.foldl delRow locked
    let maxl := listMax lines_to_clear
    let shiftOrder := (rowList.filter fun r => r < maxl).reverse
    let afterShift := shiftOrder.foldl (shiftRow lines_to_clear) afterDel
    (lines_to_clear.length, afterShift)

-- ---------- Piece ----------

structure Piece where
  type : PieceType
  rotation : Int
  x : Int
  y : Int
deriving DecidableEq

/-- `self.shape = self.rotations[self.rotation]` (kept in sync by the source;
modelled as a derived field). -/
def Piece.shape (p : Piece) : List String :=
  (TETROMINOES p.type).getD p.rotation.toNat []

/-- `self.color = COLORS[PIECE_KEYS.index(type_key)]`. -/
def Piece.color (p : Piece) : Color :=
  COLORS.getD (PIECE_KEYS.indexOf p.type) (0, 0, 0)

/-- `Piece.__init__`: spawn with anchor centered horizontally, fully above the
visible well. -/
def Piece.mk0 (t : PieceType) : Piece :=
  let shape0 := (TETROMINOES t).headI
  { type := t
    rotation := 0
    x := COLUMNS / 2 - (shape0.headI.length : Int) / 2
    y := -(shape0.length : Int) }

/-- The kick offsets tried in order by `Piece.rotate` / `Piece.rotate_ccw`. -/
def kickOffsets : List Int := [-1, 1, -2, 2]

/-- `Piece.rotate(locked)`: clockwise rotation with ordered horizontal kicks;
returns the updated piece and the reported success flag. -/
def Piece.rotate (p : Piece) (locked : Board) : Piece × Bool :=
  let n : Int := (TETROMINOES p.type).length
  let r := (p.rotation + 1) % n
  let sh := (TETROMINOES p.type).getD r.toNat []
  if valid_space sh p.x p.y locked then ({ p with rotation := r }, true)
  else
    match kickOffsets.find? (fun dx => valid_space sh (p.x + dx) p.y locked) with
    | some dx => ({ p with rotation := r, x := p.x + dx }, true)
    | none => (p, false)

/-- `Piece.rotate_ccw(locked)`: counter-clockwise rotation, same kick policy.
Python `%` on negative operands matches `Int.emod`. -/
def Piece.rotate_ccw (p : Piece) (locked : Board) : Piece × Bool :=
  let n : Int := (TETROMINOES p.type).length
  let r := (p.rotation - 1) % n
  let sh := (TETROMINOES p.type).getD r.toNat []
  if valid_space sh p.x p.y locked then ({ p with rotation := r }, true)
  else
    match kickOffsets.find? (fun dx => valid_space sh (p.x + dx) p.y locked) with
    | some dx => ({ p with rotation := r, x := p.x + dx }, true)
    | none => (p, false)

-- ---------- Game state (the `Tetris` object's session fields) ----------

structure GameState where
  locked : Board
  current : Piece
  next_piece : Piece
  fall_speed : ℚ
  score : Nat
  lines : Nat
  level : Nat
  game_over : Bool
  bag : Nat → PieceType
  bagIdx : Nat

/-- `Tetris.reset()` (the derived `grid` view and render-only timing fields are
not session state). -/
def reset (bag : Nat → PieceType) : GameState :=
  { locked := fun _ => none
    current := Piece.mk0 (bag 0)
    next_piece := Piece.mk0 (bag 1)
    fall_speed := 3 / 5
    score := 0
    lines := 0
    level := 1
    game_over := false
    bag := bag
    bagIdx := 2 }

/-- `score_table.get(cleared, 0)` for `score_table = {1: 40, 2: 100, 3: 300, 4: 1200}`. -/
def score_table : Nat → Nat
  | 1 => 40
  | 2 => 100
  | 3 => 300
  | 4 => 1200
  | _ => 0

/-- `max(0.05, 0.6 - (level - 1) * 0.05)`. -/
def fall_speed_of (level : Nat) : ℚ :=
  max (1 / 20) (3 / 5 - ((level : ℚ) - 1) * (1 / 20))

/-- One step of the merge loop in `Tetris.lock_piece`:
`if y < 0: self.game_over = True else: self.locked[(x, y)] = color`. -/
def merge_step (color : Color) (acc : Board × Bool) (c : Int × Int) : Board × Bool :=
  if c.2 < 0 then (acc.1, true) else (dictSet acc.1 c color, acc.2)

/-- The merge loop of `Tetris.lock_piece` over the piece's translated cells. -/
def merge (locked : Board) (game_over : Bool) (cells : List (Int × Int))
    (color : Color) : Board × Bool :=
  cells.foldl (merge_step color) (locked, game_over)

/-- `Tetris.lock_piece()`. -/
def lock_piece (s : GameState) : GameState :=
  let cells := shape_cells s.current.shape s.current.x s.current.y
  let m := merge s.locked s.game_over cells s.current.color
  let res := clear_lines (make_grid m.1) m.1
  let s1 : GameState :=
    if res.1 ≠ 0 then
      let lines' := s.lines + res.1
      let level' := lines' / 10 + 1
      { s with locked := res.2
               game_over := m.2
               score := s.score + score_table res.1 * s.level
               lines := lines'
               level := level'
               fall_speed := fall_speed_of level' }
    else
      { s with locked := res.2, game_over := m.2 }
  { s1 with current := s.next_piece
            next_piece := Piece.mk0 (s.bag s.bagIdx)
            bagIdx := s.bagIdx + 1 }

/-- The `while valid_space(...): self.current.y += 1` loop of `Tetris.hard_drop`,
with explicit fuel (the source loop terminates because every tetromino pattern
has an occupied cell, so validity fails at the floor; the fuel used in
`hard_drop` is proved sufficient for any such pattern). -/
def drop_loop (shape : List String) (x : Int) (locked : Board) : Nat → Int → Int
  | 0, y => y
  | n + 1, y =>
    if valid_space shape x (y + 1) locked then drop_loop shape x locked n (y + 1) else y

/-- The row at which the `hard_drop` loop stops. -/
def hard_drop_y (s : GameState) : Int :=
  drop_loop s.current.shape s.current.x s.locked (ROWS - s.current.y).toNat s.current.y

/-- `Tetris.hard_drop()`. -/
def hard_drop (s : GameState) : GameState :=
  lock_piece { s with current := { s.current with y := hard_drop_y s } }

/-- The number of downward translations performed by `hard_drop`. -/
def hard_drop_steps (s : GameState) : Nat :=
  (hard_drop_y s - s.current.y).toNat

-- ---------- The per-frame loop body of `Tetris.run` ----------

inductive GEvent
  | left | right | rotCW | rotCCW | down | drop
deriving DecidableEq

/-- One `KEYDOWN` event dispatch in `Tetris.run`. -/
def handle_event (s : GameState) (e : GEvent) : GameState :=
  match e with
  | .left =>
    if valid_space s.current.shape (s.current.x - 1) s.current.y s.locked then
      { s with current := { s.current with x := s.current.x - 1 } }
    else s
  | .right =>
    if valid_space s.current.shape (s.current.x + 1) s.current.y s.locked then
      { s with current := { s.current with x := s.current.x + 1 } }
    else s
  | .rotCW => { s with current := (s.current.rotate s.locked).1 }
  | .rotCCW => { s with current := (s.current.rotate_ccw s.locked).1 }
  | .down =>
    if valid_space s.current.shape s.current.x (s.current.y + 1) s.locked then
      { s with current := { s.current with y := s.current.y + 1 } }
    else s
  | .drop => hard_drop s

/-- The gravity branch of `Tetris.run` (fires when the fall timer elapsed). -/
def gravity_step (s : GameState) : GameState :=
  if valid_space s.current.shape s.current.x (s.current.y + 1) s.locked then
    { s with current := { s.current with y := s.current.y + 1 } }
  else lock_piece s

/-- One iteration of the `while True` loop of `Tetris.run`: the game-over check
at the top of the frame, then the buffered key events in arrival order, then
the gravity step if due.  The source checks `self.game_over` only at the top of
the loop (and after a gravity lock, by returning), never between events. -/
def frame (s : GameState) (events : List GEvent) (gravity : Bool) : GameState :=
  if s.game_over then s
  else
    let s1 := events.foldl handle_event s
    if gravity then gravity_step s1 else s1

-- ======================================================================
-- Basic facts about the configuration
-- ======================================================================

theorem COLUMNS_eq : COLUMNS = 10 := rfl

theorem ROWS_eq : ROWS = 20 := rfl

theorem colList_eq : colList = [0, 1, 2, 3, 4, 5, 6, 7, 8, 9] := rfl

theorem rowList_eq :
    rowList = [0, 1, 2, 3, 4, 5, 6, 7, 8, 9, 10, 11, 12, 13, 14, 15, 16, 17, 18, 19] := rfl

theorem mem_colList {x : Int} : x ∈ colList ↔ 0 ≤ x ∧ x < COLUMNS := by
  rw [colList_eq, COLUMNS_eq]
  simp only [List.mem_cons, List.not_mem_nil, or_false]
  omega

theorem mem_rowList {y : Int} : y ∈ rowList ↔ 0 ≤ y ∧ y < ROWS := by
  rw [rowList_eq, ROWS_eq]
  simp only [List.mem_cons, List.not_mem_nil, or_false]
  omega

theorem rowList_nodup : rowList.Nodup := by
  rw [rowList_eq]
  decide

-- ======================================================================
-- Characterization of `valid_space`
-- ======================================================================

theorem valid_space_iff (shape : List String) (ox oy : Int) (locked : Board) :
    valid_space shape ox oy locked = true ↔
      ∀ c ∈ shape_cells shape ox oy,
        0 ≤ c.1 ∧ c.1 < COLUMNS ∧ c.2 < ROWS ∧ (0 ≤ c.2 → locked c = none) := by
  unfold valid_space
  rw [List.all_eq_true]
  constructor
  · intro h c hc
    have hcv := h c hc
    split_ifs at hcv with h1 h2
    refine ⟨by omega, by omega, by omega, fun hy => ?_⟩
    by_contra hne
    exact h2 ⟨hy, Option.isSome_iff_ne_none.mpr hne⟩
  · intro h c hc
    obtain ⟨h1, h2, h3, h4⟩ := h c hc
    split_ifs with hA hB
    · exact absurd hA (by omega)
    · exact absurd (h4 hB.1) (Option.isSome_iff_ne_none.mp hB.2)
    · rfl

/-- **C2** — `valid_space` returns true iff every occupied cell of the shape
translated by the anchor has column in `[0, COLUMNS)`, row `< ROWS`, and, when
its row is `≥ 0`, is not a key of the occupancy mapping; cells with row `< 0`
are exempt from the occupancy check but still rejected on a column out of
range. -/
theorem claim2_valid_space_characterization (shape : List String) (ox oy : Int)
    (locked : Board) :
    valid_space shape ox oy locked = true ↔
      ∀ c ∈ shape_cells shape ox oy,
        0 ≤ c.1 ∧ c.1 < COLUMNS ∧ c.2 < ROWS ∧ (0 ≤ c.2 → locked c = none) :=
  valid_space_iff shape ox oy locked

/-- **C10** — for every board occupancy mapping (however full) and every shape
family, the freshly spawned piece is valid per `valid_space`: all its cells lie
at negative rows, exempt from the occupancy check, with all columns in range;
hence the immediate-game-over branch for an invalid spawn is unreachable. -/
theorem claim10_spawn_always_valid (t : PieceType) (locked : Board) :
    valid_space (Piece.mk0 t).shape (Piece.mk0 t).x (Piece.mk0 t).y locked = true := by
  cases t <;> rfl

-- ======================================================================
-- Structure of `shape_cells`
-- ======================================================================

theorem shape_cells_eq_map (shape : List String) (ox oy : Int) :
    shape_cells shape ox oy
      = (shape_cells shape 0 0).map (fun c => (ox + c.1, oy + c.2)) := by
  unfold shape_cells
  rw [List.map_flatten, List.map_map]
  congr 1
  apply List.map_congr_left
  intro yrow _
  simp only [Function.comp]
  rw [List.map_filterMap]
  congr 1
  funext xch
  by_cases h : xch.2 = '1' <;> simp [h]

theorem mem_shape_cells_iff {shape : List String} {ox oy : Int} {c : Int × Int} :
    c ∈ shape_cells shape ox oy ↔
      ∃ c0 ∈ shape_cells shape 0 0, c = (ox + c0.1, oy + c0.2) := by
  rw [shape_cells_eq_map, List.mem_map]
  constructor
  · rintro ⟨c0, hc0, rfl⟩
    exact ⟨c0, hc0, rfl⟩
  · rintro ⟨c0, hc0, rfl⟩
    exact ⟨c0, hc0, rfl⟩

theorem shape_cells_base_nonneg {shape : List String} {c : Int × Int}
    (h : c ∈ shape_cells shape 0 0) : 0 ≤ c.1 ∧ 0 ≤ c.2 := by
  unfold shape_cells at h
  rw [List.mem_flatten] at h
  obtain ⟨l, hl, hc⟩ := h
  rw [List.mem_map] at hl
  obtain ⟨yrow, _, rfl⟩ := hl
  rw [List.mem_filterMap] at hc
  obtain ⟨xch, _, hx⟩ := hc
  split_ifs at hx with h1
  obtain rfl : ((0 : Int) + (xch.1 : Int), (0 : Int) + (yrow.1 : Int)) = c :=
    Option.some.inj hx
  constructor <;> simp

-- ======================================================================
-- Termination and step bound of the `hard_drop` loop
-- ======================================================================

theorem valid_space_false_of_low (shape : List String) (x : Int) (locked : Board)
    {z ry cx : Int} (hbase : (cx, ry) ∈ shape_cells shape 0 0) (hz : ROWS ≤ z + ry) :
    valid_space shape x z locked = false := by
  by_contra h
  rw [Bool.not_eq_false, valid_space_iff] at h
  have hmem : (x + cx, z + ry) ∈ shape_cells shape x z :=
    mem_shape_cells_iff.mpr ⟨(cx, ry), hbase, rfl⟩
  have := (h _ hmem).2.2.1
  simp only at this
  omega

theorem drop_loop_exit (shape : List String) (x : Int) (locked : Board)
    {ry cx : Int} (hbase : (cx, ry) ∈ shape_cells shape 0 0) :
    ∀ (fuel : Nat) (z : Int), (ROWS - ry - z).toNat ≤ fuel →
      valid_space shape x (drop_loop shape x locked fuel z + 1) locked = false
      ∧ drop_loop shape x locked fuel z ≤ max z (ROWS - 1 - ry) := by
  intro fuel
  induction fuel with
  | zero =>
    intro z hz
    simp only [drop_loop]
    exact ⟨valid_space_false_of_low shape x locked hbase (by omega), le_max_left _ _⟩
  | succ n ih =>
    intro z hz
    simp only [drop_loop]
    by_cases hv : valid_space shape x (z + 1) locked = true
    · rw [if_pos hv]
      have hmem : (x + cx, (z + 1) + ry) ∈ shape_cells shape x (z + 1) :=
        mem_shape_cells_iff.mpr ⟨(cx, ry), hbase, rfl⟩
      have hlt : (z + 1) + ry < ROWS := by
        have := ((valid_space_iff _ _ _ _).mp hv _ hmem).2.2.1
        simp only at this
        omega
      have hrec := ih (z + 1) (by omega)
      exact ⟨hrec.1, by omega⟩
    · rw [if_neg hv]
      exact ⟨Bool.eq_false_iff.mpr hv, le_max_left _ _⟩

/-- **C7 (amended)** — for every piece position and board occupancy mapping,
the hard-drop loop genuinely terminates (validity fails at the resulting row's
successor) and the number of downward steps is at most the distance
`ROWS − 1 − r` from any occupied cell's row `r` to the bottom row — for a
freshly spawned piece this can reach `ROWS + 3`, not `ROWS` — and the call
always ends in a lock of the piece. -/
theorem claim7_hard_drop_terminates (s : GameState) (c : Int × Int)
    (hc : c ∈ shape_cells s.current.shape s.current.x s.current.y) :
    valid_space s.current.shape s.current.x (hard_drop_y s + 1) s.locked = false
    ∧ (hard_drop_steps s : Int) ≤ max 0 (ROWS - 1 - c.2)
    ∧ hard_drop s = lock_piece { s with current := { s.current with y := hard_drop_y s } } := by
  obtain ⟨c0, hc0, hceq⟩ := mem_shape_cells_iff.mp hc
  have hry : 0 ≤ c0.2 := (shape_cells_base_nonneg hc0).2
  have hfuel : (ROWS - c0.2 - s.current.y).toNat ≤ (ROWS - s.current.y).toNat := by omega
  have hmain := drop_loop_exit s.current.shape s.current.x s.locked hc0
    (ROWS - s.current.y).toNat s.current.y hfuel
  refine ⟨hmain.1, ?_, rfl⟩
  have h2 := hmain.2
  subst hceq
  unfold hard_drop_steps
  unfold hard_drop_y at h2 ⊢
  simp only
  omega

/-- Counterexample to **C7** as stated: hard-dropping the freshly spawned I
piece on the empty board performs 22 downward steps, strictly more than
`ROWS = 20`. -/
theorem claim7_counterexample :
    hard_drop_steps (reset (fun _ => I)) = 22 ∧ ROWS < 22 :=
  ⟨by decide, by decide⟩

/-- Witness for C7: the amended bound instantiated at the spawned O piece on
the empty board, with occupied cell `(4, -1)`. -/
theorem claim7_witness :
    ((4, -1) ∈ shape_cells (reset (fun _ => O)).current.shape
        (reset (fun _ => O)).current.x (reset (fun _ => O)).current.y)
    ∧ (valid_space (reset (fun _ => O)).current.shape (reset (fun _ => O)).current.x
          (hard_drop_y (reset (fun _ => O)) + 1) (reset (fun _ => O)).locked = false
       ∧ (hard_drop_steps (reset (fun _ => O)) : Int) ≤ max 0 (ROWS - 1 - (-1))
       ∧ hard_drop (reset (fun _ => O)) = lock_piece { reset (fun _ => O) with
            current := { (reset (fun _ => O)).current with
              y := hard_drop_y (reset (fun _ => O)) } }) :=
  ⟨by decide, claim7_hard_drop_terminates (reset (fun _ => O)) (4, -1) (by decide)⟩

-- ======================================================================
-- Rotation characterization
-- ======================================================================

/-- The rotation index produced by `Piece.rotate` before the validity check. -/
def cwRot (p : Piece) : Int := (p.rotation + 1) % ((TETROMINOES p.type).length : Int)

/-- The pattern tried by `Piece.rotate`. -/
def cwShape (p : Piece) : List String := (TETROMINOES p.type).getD (cwRot p).toNat []

/-- The rotation index produced by `Piece.rotate_ccw` before the validity check. -/
def ccwRot (p : Piece) : Int := (p.rotation - 1) % ((TETROMINOES p.type).length : Int)

/-- The pattern tried by `Piece.rotate_ccw`. -/
def ccwShape (p : Piece) : List String := (TETROMINOES p.type).getD (ccwRot p).toNat []

theorem Piece.rotate_eq (p : Piece) (locked : Board) :
    p.rotate locked =
      (if valid_space (cwShape p) p.x p.y locked then ({ p with rotation := cwRot p }, true)
       else
         match kickOffsets.find? (fun dx => valid_space (cwShape p) (p.x + dx) p.y locked) with
         | some dx => ({ p with rotation := cwRot p, x := p.x + dx }, true)
         | none => (p, false)) := rfl

theorem Piece.rotate_ccw_eq (p : Piece) (locked : Board) :
    p.rotate_ccw locked =
      (if valid_space (ccwShape p) p.x p.y locked then ({ p with rotation := ccwRot p }, true)
       else
         match kickOffsets.find? (fun dx => valid_space (ccwShape p) (p.x + dx) p.y locked) with
         | some dx => ({ p with rotation := ccwRot p, x := p.x + dx }, true)
         | none => (p, false)) := rfl

/-- **C5** — an invalid rotation tries the kick offsets `[-1, 1, -2, 2]` in
order and applies the first valid one, reporting success; if none succeeds the
piece's rotation index, pattern and anchor are exactly as before and the call
reports failure; an invalid move left/right/soft-drop is a silent no-op. -/
theorem claim5_illegal_actions_rejected (s : GameState) :
    (valid_space (cwShape s.current) s.current.x s.current.y s.locked = false →
      (∀ dx ∈ kickOffsets,
        valid_space (cwShape s.current) (s.current.x + dx) s.current.y s.locked = false) →
      s.current.rotate s.locked = (s.current, false))
    ∧ (∀ dx : Int,
        valid_space (cwShape s.current) s.current.x s.current.y s.locked = false →
        kickOffsets.find?
            (fun d => valid_space (cwShape s.current) (s.current.x + d) s.current.y s.locked)
          = some dx →
        s.current.rotate s.locked
          = ({ s.current with rotation := cwRot s.current, x := s.current.x + dx }, true))
    ∧ (valid_space (ccwShape s.current) s.current.x s.current.y s.locked = false →
      (∀ dx ∈ kickOffsets,
        valid_space (ccwShape s.current) (s.current.x + dx) s.current.y s.locked = false) →
      s.current.rotate_ccw s.locked = (s.current, false))
    ∧ (∀ dx : Int,
        valid_space (ccwShape s.current) s.current.x s.current.y s.locked = false →
        kickOffsets.find?
            (fun d => valid_space (ccwShape s.current) (s.current.x + d) s.current.y s.locked)
          = some dx →
        s.current.rotate_ccw s.locked
          = ({ s.current with rotation := ccwRot s.current, x := s.current.x + dx }, true))
    ∧ (valid_space s.current.shape (s.current.x - 1) s.current.y s.locked = false →
        handle_event s GEvent.left = s)
    ∧ (valid_space s.current.shape (s.current.x + 1) s.current.y s.locked = false →
        handle_event s GEvent.right = s)
    ∧ (valid_space s.current.shape s.current.x (s.current.y + 1) s.locked = false →
        handle_event s GEvent.down = s) := by
  refine ⟨?_, ?_, ?_, ?_, ?_, ?_, ?_⟩
  · intro hv hk
    have hnone : kickOffsets.find?
        (fun d => valid_space (cwShape s.current) (s.current.x + d) s.current.y s.locked)
        = none :=
      List.find?_eq_none.mpr fun x hx => by rw [hk x hx]; simp
    rw [Piece.rotate_eq, if_neg (by rw [hv]; simp), hnone]
  · intro dx hv hfind
    rw [Piece.rotate_eq, if_neg (by rw [hv]; simp), hfind]
  · intro hv hk
    have hnone : kickOffsets.find?
        (fun d => valid_space (ccwShape s.current) (s.current.x + d) s.current.y s.locked)
        = none :=
      List.find?_eq_none.mpr fun x hx => by rw [hk x hx]; simp
    rw [Piece.rotate_ccw_eq, if_neg (by rw [hv]; simp), hnone]
  · intro dx hv hfind
    rw [Piece.rotate_ccw_eq, if_neg (by rw [hv]; simp), hfind]
  · intro hv
    simp only [handle_event]
    rw [if_neg (by rw [hv]; simp)]
  · intro hv
    simp only [handle_event]
    rw [if_neg (by rw [hv]; simp)]
  · intro hv
    simp only [handle_event]
    rw [if_neg (by rw [hv]; simp)]

/-- A session state with given board and current piece (auxiliary fields fixed),
used to instantiate theorems at concrete inputs. -/
def testState (locked : Board) (p : Piece) : GameState :=
  { locked := locked
    current := p
    next_piece := Piece.mk0 O
    fall_speed := 3 / 5
    score := 0
    lines := 0
    level := 1
    game_over := false
    bag := fun _ => O
    bagIdx := 2 }

/-- A board with row 10 occupied in columns 3..7. -/
def blockRow10 : Board := fun p =>
  if p.2 = 10 ∧ 3 ≤ p.1 ∧ p.1 ≤ 7 then some (1, 1, 1) else none

/-- A board with the single cell (5, 10) occupied. -/
def blockOne : Board := fun p => if p = (5, 10) then some (1, 1, 1) else none

/-- Witness for C5: a fully blocked rotation reverts and reports failure, a
rotation whose first kick offset `-1` is valid applies it, and moves into the
wall or the floor are no-ops. -/
theorem claim5_witness :
    ((testState blockRow10 { type := I, rotation := 0, x := 3, y := 10 }).current.rotate
        blockRow10 = ({ type := I, rotation := 0, x := 3, y := 10 }, false))
    ∧ ((testState blockOne { type := I, rotation := 0, x := 3, y := 10 }).current.rotate
        blockOne = ({ type := I, rotation := 1, x := 2, y := 10 }, true))
    ∧ ((testState blockRow10 { type := I, rotation := 0, x := 3, y := 10 }).current.rotate_ccw
        blockRow10 = ({ type := I, rotation := 0, x := 3, y := 10 }, false))
    ∧ ((testState blockOne { type := I, rotation := 0, x := 3, y := 10 }).current.rotate_ccw
        blockOne = ({ type := I, rotation := 1, x := 2, y := 10 }, true))
    ∧ (handle_event (testState (fun _ => none) { type := O, rotation := 0, x := 0, y := 5 })
        GEvent.left = testState (fun _ => none) { type := O, rotation := 0, x := 0, y := 5 })
    ∧ (handle_event (testState (fun _ => none) { type := O, rotation := 0, x := 8, y := 5 })
        GEvent.right = testState (fun _ => none) { type := O, rotation := 0, x := 8, y := 5 })
    ∧ (handle_event (testState (fun _ => none) { type := O, rotation := 0, x := 4, y := 18 })
        GEvent.down = testState (fun _ => none) { type := O, rotation := 0, x := 4, y := 18 }) := by
  refine ⟨?_, ?_, ?_, ?_, ?_, ?_, ?_⟩
  · exact (claim5_illegal_actions_rejected
      (testState blockRow10 { type := I, rotation := 0, x := 3, y := 10 })).1
      (by decide) (by decide)
  · exact (claim5_illegal_actions_rejected
      (testState blockOne { type := I, rotation := 0, x := 3, y := 10 })).2.1
      (-1) (by decide) (by decide)
  · exact (claim5_illegal_actions_rejected
      (testState blockRow10 { type := I, rotation := 0, x := 3, y := 10 })).2.2.1
      (by decide) (by decide)
  · exact (claim5_illegal_actions_rejected
      (testState blockOne { type := I, rotation := 0, x := 3, y := 10 })).2.2.2.1
      (-1) (by decide) (by decide)
  · exact (claim5_illegal_actions_rejected
      (testState (fun _ => none) { type := O, rotation := 0, x := 0, y := 5 })).2.2.2.2.1
      (by decide)
  · exact (claim5_illegal_actions_rejected
      (testState (fun _ => none) { type := O, rotation := 0, x := 8, y := 5 })).2.2.2.2.2.1
      (by decide)
  · exact (claim5_illegal_actions_rejected
      (testState (fun _ => none) { type := O, rotation := 0, x := 4, y := 18 })).2.2.2.2.2.2
      (by decide)

theorem rotate_valid_case (p : Piece) (b : Board)
    (hv : valid_space (cwShape p) p.x p.y b = true) :
    p.rotate b = ({ p with rotation := cwRot p }, true) := by
  rw [Piece.rotate_eq, if_pos hv]

/-- **C8** — for a 4-rotation-state family (J, L or T) in a board where all four
successive clockwise rotations are valid at the unchanged anchor (so no kick is
ever applied), rotating clockwise four times restores the original pattern,
rotation index and anchor. -/
theorem claim8_four_rotations_identity (p : Piece) (b : Board)
    (ht : p.type = J ∨ p.type = L ∨ p.type = T)
    (hr : 0 ≤ p.rotation ∧ p.rotation < 4)
    (h1 : valid_space ((TETROMINOES p.type).getD (((p.rotation + 1) % 4).toNat) [])
        p.x p.y b = true)
    (h2 : valid_space ((TETROMINOES p.type).getD (((p.rotation + 2) % 4).toNat) [])
        p.x p.y b = true)
    (h3 : valid_space ((TETROMINOES p.type).getD (((p.rotation + 3) % 4).toNat) [])
        p.x p.y b = true)
    (h4 : valid_space ((TETROMINOES p.type).getD (p.rotation.toNat) []) p.x p.y b = true) :
    ((((p.rotate b).1.rotate b).1.rotate b).1.rotate b).1 = p := by
  have hn : ((TETROMINOES p.type).length : Int) = 4 := by
    rcases ht with h | h | h <;> rw [h] <;> rfl
  have e1 : p.rotate b = ({ p with rotation := (p.rotation + 1) % 4 }, true) := by
    rw [rotate_valid_case p b]
    · rw [cwRot, hn]
    · rw [cwShape, cwRot, hn]
      exact h1
  rw [e1]
  have e2 : ({ p with rotation := (p.rotation + 1) % 4 } : Piece).rotate b
      = ({ p with rotation := (p.rotation + 2) % 4 }, true) := by
    rw [rotate_valid_case]
    · rw [cwRot, hn]
      simp only
      rw [show ((p.rotation + 1) % 4 + 1) % 4 = (p.rotation + 2) % 4 by omega]
    · rw [cwShape, cwRot, hn]
      simp only
      rw [show ((p.rotation + 1) % 4 + 1) % 4 = (p.rotation + 2) % 4 by omega]
      exact h2
  rw [e2]
  have e3 : ({ p with rotation := (p.rotation + 2) % 4 } : Piece).rotate b
      = ({ p with rotation := (p.rotation + 3) % 4 }, true) := by
    rw [rotate_valid_case]
    · rw [cwRot, hn]
      simp only
      rw [show ((p.rotation + 2) % 4 + 1) % 4 = (p.rotation + 3) % 4 by omega]
    · rw [cwShape, cwRot, hn]
      simp only
      rw [show ((p.rotation + 2) % 4 + 1) % 4 = (p.rotation + 3) % 4 by omega]
      exact h3
  rw [e3]
  have e4 : ({ p with rotation := (p.rotation + 3) % 4 } : Piece).rotate b
      = ({ p with rotation := p.rotation }, true) := by
    rw [rotate_valid_case]
    · rw [cwRot, hn]
      simp only
      rw [show ((p.rotation + 3) % 4 + 1) % 4 = p.rotation by omega]
    · rw [cwShape, cwRot, hn]
      simp only
      rw [show ((p.rotation + 3) % 4 + 1) % 4 = p.rotation by omega]
      exact h4
  rw [e4]

/-- Witness for C8: the T piece at rotation 0, anchor (3, 5), on the empty
board — all four clockwise rotations are valid and the cycle is the identity. -/
theorem claim8_witness :
    (({ type := T, rotation := 0, x := 3, y := 5 } : Piece).type = J
      ∨ ({ type := T, rotation := 0, x := 3, y := 5 } : Piece).type = L
      ∨ ({ type := T, rotation := 0, x := 3, y := 5 } : Piece).type = T)
    ∧ valid_space ((TETROMINOES T).getD ((((0 : Int) + 1) % 4).toNat) []) 3 5
        (fun _ => none) = true
    ∧ valid_space ((TETROMINOES T).getD ((((0 : Int) + 2) % 4).toNat) []) 3 5
        (fun _ => none) = true
    ∧ valid_space ((TETROMINOES T).getD ((((0 : Int) + 3) % 4).toNat) []) 3 5
        (fun _ => none) = true
    ∧ valid_space ((TETROMINOES T).getD ((0 : Int).toNat) []) 3 5
        (fun _ => none) = true
    ∧ ((((({ type := T, rotation := 0, x := 3, y := 5 } : Piece).rotate
          (fun _ => none)).1.rotate (fun _ => none)).1.rotate
          (fun _ => none)).1.rotate (fun _ => none)).1
        = { type := T, rotation := 0, x := 3, y := 5 } :=
  ⟨Or.inr (Or.inr rfl), by decide, by decide, by decide, by decide,
    claim8_four_rotations_identity { type := T, rotation := 0, x := 3, y := 5 }
      (fun _ => none) (Or.inr (Or.inr rfl)) (by decide)
      (by decide) (by decide) (by decide) (by decide)⟩

/-- **C4 (amended)** — once the session is in the GameOver state at the top of
a frame, the frame applies no gravity or input mutation at all: the loop exits
with the state unchanged until a restart re-initializes it.  (Events dequeued
in the same frame as the transition are still applied — see the
counterexample.) -/
theorem claim4_game_over_freezes_frames (s : GameState) (events : List GEvent)
    (gravity : Bool) (h : s.game_over = true) : frame s events gravity = s := by
  simp only [frame, h, if_true]

/-- A session state already in GameOver. -/
def gameOverState : GameState :=
  { testState (fun _ => none) (Piece.mk0 O) with game_over := true }

/-- Witness for C4: a frame with input and gravity leaves a game-over state
untouched. -/
theorem claim4_witness :
    gameOverState.game_over = true
    ∧ frame gameOverState [GEvent.left] true = gameOverState :=
  ⟨rfl, claim4_game_over_freezes_frames gameOverState [GEvent.left] true rfl⟩

/-- A board on which the spawned O piece cannot enter the well: cells (4, 0)
and (5, 0) are occupied. -/
def blockTop : Board := fun p =>
  if p = (4, 0) ∨ p = (5, 0) then some (1, 1, 1) else none

/-- Counterexample to **C4** as stated: in the frame whose hard drop locks the
piece above the well (setting the game-over flag), a later input event of the
same frame still moves the newly promoted current piece — events arriving
after the transition in the same frame ARE applied. -/
theorem claim4_counterexample :
    (testState blockTop (Piece.mk0 O)).game_over = false
    ∧ (frame (testState blockTop (Piece.mk0 O)) [GEvent.drop] false).game_over = true
    ∧ (frame (testState blockTop (Piece.mk0 O)) [GEvent.drop, GEvent.left] false).current.x
        ≠ (frame (testState blockTop (Piece.mk0 O)) [GEvent.drop] false).current.x :=
  ⟨by decide, by decide, by decide⟩

-- ======================================================================
-- Characterization of the merge loop and of `lock_piece`
-- ======================================================================

theorem merge_board_eval (cells : List (Int × Int)) (locked : Board) (go : Bool)
    (color : Color) (q : Int × Int) :
    (merge locked go cells color).1 q
      = if q ∈ cells ∧ 0 ≤ q.2 then some color else locked q := by
  induction cells generalizing locked go with
  | nil => simp [merge]
  | cons c cs ih =>
    simp only [merge, List.foldl_cons]
    by_cases hc : c.2 < 0
    · rw [show merge_step color (locked, go) c = (locked, true) by rw [merge_step, if_pos hc]]
      rw [show List.foldl (merge_step color) (locked, true) cs = merge locked true cs color
        from rfl]
      rw [ih locked true]
      by_cases hq : q ∈ cs ∧ 0 ≤ q.2
      · rw [if_pos hq, if_pos ⟨List.mem_cons_of_mem _ hq.1, hq.2⟩]
      · rw [if_neg hq, if_neg ?_]
        rintro ⟨hm, h0⟩
        rcases List.mem_cons.mp hm with rfl | hmem
        · omega
        · exact hq ⟨hmem, h0⟩
    · rw [show merge_step color (locked, go) c = (dictSet locked c color, go)
        by rw [merge_step, if_neg hc]]
      rw [show List.foldl (merge_step color) (dictSet locked c color, go) cs
          = merge (dictSet locked c color) go cs color from rfl]
      rw [ih]
      by_cases hq : q ∈ cs ∧ 0 ≤ q.2
      · rw [if_pos hq, if_pos ⟨List.mem_cons_of_mem _ hq.1, hq.2⟩]
      · rw [if_neg hq]
        by_cases hqc : q = c
        · subst hqc
          rw [show dictSet locked q color q = some color by rw [dictSet]; simp]
          rw [if_pos ⟨List.mem_cons_self _ _, by omega⟩]
        · rw [show dictSet locked c color q = locked q by rw [dictSet]; simp [hqc]]
          rw [if_neg ?_]
          rintro ⟨hm, h0⟩
          rcases List.mem_cons.mp hm with rfl | hmem
          · exact hqc rfl
          · exact hq ⟨hmem, h0⟩

theorem merge_flag_eval (cells : List (Int × Int)) (locked : Board) (go : Bool)
    (color : Color) :
    (merge locked go cells color).2 = (go || cells.any fun c => decide (c.2 < 0)) := by
  induction cells generalizing locked go with
  | nil => simp [merge]
  | cons c cs ih =>
    simp only [merge, List.foldl_cons, List.any_cons]
    by_cases hc : c.2 < 0
    · rw [show merge_step color (locked, go) c = (locked, true) by rw [merge_step, if_pos hc]]
      rw [show List.foldl (merge_step color) (locked, true) cs = merge locked true cs color
        from rfl]
      rw [ih]
      simp [hc]
    · rw [show merge_step color (locked, go) c = (dictSet locked c color, go)
        by rw [merge_step, if_neg hc]]
      rw [show List.foldl (merge_step color) (dictSet locked c color, go) cs
          = merge (dictSet locked c color) go cs color from rfl]
      rw [ih]
      simp [hc]

/-- The merge result produced inside `lock_piece`. -/
def lockMerged (s : GameState) : Board × Bool :=
  merge s.locked s.game_over (shape_cells s.current.shape s.current.x s.current.y)
    s.current.color

/-- The `clear_lines` result produced inside `lock_piece`. -/
def lockCleared (s : GameState) : Nat × Board :=
  clear_lines (make_grid (lockMerged s).1) (lockMerged s).1

theorem lock_piece_eq (s : GameState) :
    lock_piece s =
      { locked := (lockCleared s).2
        current := s.next_piece
        next_piece := Piece.mk0 (s.bag s.bagIdx)
        fall_speed :=
          if (lockCleared s).1 ≠ 0 then fall_speed_of ((s.lines + (lockCleared s).1) / 10 + 1)
          else s.fall_speed
        score :=
          if (lockCleared s).1 ≠ 0 then s.score + score_table (lockCleared s).1 * s.level
          else s.score
        lines := if (lockCleared s).1 ≠ 0 then s.lines + (lockCleared s).1 else s.lines
        level :=
          if (lockCleared s).1 ≠ 0 then (s.lines + (lockCleared s).1) / 10 + 1 else s.level
        game_over := (lockMerged s).2
        bag := s.bag
        bagIdx := s.bagIdx + 1 } := by
  simp only [lock_piece, lockCleared, lockMerged]
  split_ifs with h <;> rfl

/-- **C3 (amended)** — at a lock, the merge loop writes every occupied cell of
the piece with row ≥ 0 into the occupancy mapping, keyed by coordinate with the
piece's color as value; cells with row < 0 are NOT written (the mapping is
unchanged at any negative-row coordinate), and the lock sets the game-over flag
exactly when some occupied cell has row < 0 — signaled to the caller, not
raised as an error. -/
theorem claim3_merge_and_game_over (s : GameState) :
    (∀ c ∈ shape_cells s.current.shape s.current.x s.current.y, 0 ≤ c.2 →
      (lockMerged s).1 c = some s.current.color)
    ∧ (∀ c : Int × Int, c.2 < 0 → (lockMerged s).1 c = s.locked c)
    ∧ ((lock_piece s).game_over
        = (s.game_over
            || (shape_cells s.current.shape s.current.x s.current.y).any
                fun c => decide (c.2 < 0))) := by
  refine ⟨?_, ?_, ?_⟩
  · intro c hc h0
    rw [lockMerged, merge_board_eval, if_pos ⟨hc, h0⟩]
  · intro c hneg
    rw [lockMerged, merge_board_eval, if_neg ?_]
    rintro ⟨-, h0⟩
    omega
  · rw [lock_piece_eq]
    simp only
    rw [lockMerged, merge_flag_eval]

/-- Witness for C3: locking the O piece resting on the floor writes its cells
with the piece color; coordinates at negative rows are untouched; the flag
stays clear when no cell is negative. -/
theorem claim3_witness :
    ((4, 18) ∈ shape_cells
        (testState (fun _ => none) { type := O, rotation := 0, x := 4, y := 18 }).current.shape
        (testState (fun _ => none) { type := O, rotation := 0, x := 4, y := 18 }).current.x
        (testState (fun _ => none) { type := O, rotation := 0, x := 4, y := 18 }).current.y)
    ∧ ((lockMerged (testState (fun _ => none) { type := O, rotation := 0, x := 4, y := 18 })).1
        (4, 18)
        = some (testState (fun _ => none) { type := O, rotation := 0, x := 4, y := 18 }).current.color)
    ∧ ((lockMerged (testState (fun _ => none) { type := O, rotation := 0, x := 4, y := 18 })).1
        (0, -5)
        = (testState (fun _ => none) { type := O, rotation := 0, x := 4, y := 18 }).locked (0, -5))
    ∧ ((lock_piece (testState (fun _ => none) { type := O, rotation := 0, x := 4, y := 18 })).game_over
        = ((testState (fun _ => none) { type := O, rotation := 0, x := 4, y := 18 }).game_over
            || (shape_cells
                (testState (fun _ => none) { type := O, rotation := 0, x := 4, y := 18 }).current.shape
                (testState (fun _ => none) { type := O, rotation := 0, x := 4, y := 18 }).current.x
                (testState (fun _ => none) { type := O, rotation := 0, x := 4, y := 18 }).current.y).any
                fun c => decide (c.2 < 0))) := by
  refine ⟨by decide, ?_, ?_, ?_⟩
  · exact (claim3_merge_and_game_over
      (testState (fun _ => none) { type := O, rotation := 0, x := 4, y := 18 })).1
      (4, 18) (by decide) (by decide)
  · exact (claim3_merge_and_game_over
      (testState (fun _ => none) { type := O, rotation := 0, x := 4, y := 18 })).2.1
      (0, -5) (by decide)
  · exact (claim3_merge_and_game_over
      (testState (fun _ => none) { type := O, rotation := 0, x := 4, y := 18 })).2.2

/-- Counterexample to **C3** as stated: when the O piece locks entirely above
the well, its occupied cell `(4, -1)` is NOT written into the occupancy
mapping (the claim asserts every occupied cell is written); the game-over flag
is set instead. -/
theorem claim3_counterexample :
    ((4, -1) ∈ shape_cells (Piece.mk0 O).shape (Piece.mk0 O).x (Piece.mk0 O).y)
    ∧ (lockMerged (testState blockTop (Piece.mk0 O))).1 (4, -1) = none
    ∧ (lock_piece (testState blockTop (Piece.mk0 O))).game_over = true :=
  ⟨by decide, by decide, by decide⟩


-- ======================================================================
-- Counting lemmas for shift amounts
-- ======================================================================

theorem length_le_of_nodup_Ioc {l : List Int} (hnd : l.Nodup) {a b : Int}
    (h : ∀ c ∈ l, a < c ∧ c ≤ b) : l.length ≤ (b - a).toNat := by
  classical
  have hsub : l.toFinset ⊆ Finset.Ioc a b := by
    intro c hc
    rw [List.mem_toFinset] at hc
    rw [Finset.mem_Ioc]
    exact h c hc
  have hcard := Finset.card_le_card hsub
  rw [List.toFinset_card_of_nodup hnd, Int.card_Ioc] at hcard
  exact hcard

theorem filter_length_split (l : List Int) (y1 y2 : Int) (h12 : y1 ≤ y2) :
    (l.filter fun c => y1 < c).length
      = (l.filter fun c => y1 < c ∧ c ≤ y2).length
        + (l.filter fun c => y2 < c).length := by
  have hfun : (fun c : Int => decide (y1 < c ∧ c ≤ y2))
      = (fun c => decide (y1 < c) && decide (c ≤ y2)) := by
    funext c
    exact Bool.decide_and _ _
  rw [hfun]
  induction l with
  | nil => simp
  | cons c cs ih =>
    simp only [List.filter_cons]
    by_cases h1 : y1 < c
    · by_cases h2 : c ≤ y2
      · have h3 : ¬y2 < c := by omega
        simp [h1, h2, h3]
        omega
      · have h3 : y2 < c := by omega
        simp [h1, h2, h3]
        omega
    · have h2 : ¬(y1 < c ∧ c ≤ y2) := by omega
      have h3 : ¬y2 < c := by omega
      simp [h1, h2, h3]
      omega

theorem shiftOf_le_of_bound {S : List Int} (hnd : S.Nodup) {y B : Int}
    (hB : ∀ c ∈ S, c ≤ B) : (shiftOf S y : Int) ≤ max 0 (B - y) := by
  rw [shiftOf]
  have hlen := length_le_of_nodup_Ioc (l := S.filter fun c => y < c)
      (hnd.filter _) (a := y) (b := B) ?_
  · omega
  · intro c hc
    rw [List.mem_filter] at hc
    refine ⟨by simpa using hc.2, hB c hc.1⟩

theorem shiftOf_eq_zero {S : List Int} {y : Int} (h : ∀ c ∈ S, c ≤ y) :
    shiftOf S y = 0 := by
  rw [shiftOf, List.length_eq_zero, List.filter_eq_nil_iff]
  intro c hc
  simp only [decide_eq_true_eq]
  have := h c hc
  omega

theorem shiftOf_pos {S : List Int} {y m : Int} (hm : m ∈ S) (h : y < m) :
    0 < shiftOf S y := by
  rw [shiftOf]
  have : m ∈ S.filter fun c => y < c := List.mem_filter.mpr ⟨hm, by simpa using h⟩
  exact List.length_pos.mpr fun hnil => by rw [hnil] at this; exact List.not_mem_nil m this

/-- Strict monotonicity of the destination map `y ↦ y + shift(y)` on rows that
are not cleared. -/
theorem shift_dest_mono {S : List Int} (hnd : S.Nodup) {y1 y2 : Int} (h12 : y1 < y2)
    (h2 : y2 ∉ S) :
    y1 + (shiftOf S y1 : Int) < y2 + (shiftOf S y2 : Int) := by
  have hsplit := filter_length_split S y1 y2 (by omega)
  have hmid := length_le_of_nodup_Ioc (l := S.filter fun c => y1 < c ∧ c ≤ y2)
      (hnd.filter _) (a := y1) (b := y2 - 1) ?_
  · rw [shiftOf, shiftOf]
    omega
  · intro c hc
    rw [List.mem_filter] at hc
    have hcs := hc.1
    have hcc : y1 < c ∧ c ≤ y2 := by simpa using hc.2
    have hne : c ≠ y2 := fun he => h2 (he ▸ hcs)
    omega

-- ======================================================================
-- `listMax` lemmas
-- ======================================================================

theorem foldl_max_le_self : ∀ (t : List Int) (h : Int), h ≤ t.foldl max h
  | [], _ => le_refl _
  | a :: t, h => le_trans (le_max_left h a) (foldl_max_le_self t (max h a))

theorem le_foldl_max : ∀ (t : List Int) (h c : Int), c ∈ t → c ≤ t.foldl max h
  | a :: t, h, c, hc => by
    rcases List.mem_cons.mp hc with rfl | hc'
    · exact le_trans (le_max_right h c) (foldl_max_le_self t (max h c))
    · exact le_foldl_max t (max h a) c hc'

theorem foldl_max_mem : ∀ (t : List Int) (h : Int), t.foldl max h ∈ h :: t
  | [], h => List.mem_cons_self h []
  | a :: t, h => by
    have hrec := foldl_max_mem t (max h a)
    rw [List.foldl_cons]
    rcases List.mem_cons.mp hrec with he | ht
    · rw [he]
      rcases max_choice h a with hh | ha
    -- max h a is h or a
      · rw [hh]; exact List.mem_cons_self _ _
      · rw [ha]; exact List.mem_cons_of_mem _ (List.mem_cons_self _ _)
    · exact List.mem_cons_of_mem _ (List.mem_cons_of_mem _ ht)

theorem listMax_mem {S : List Int} (h : S ≠ []) : listMax S ∈ S := by
  cases S with
  | nil => exact absurd rfl h
  | cons a t =>
    rw [listMax]
    exact foldl_max_mem t a

theorem le_listMax {S : List Int} {c : Int} (hc : c ∈ S) : c ≤ listMax S := by
  cases S with
  | nil => exact absurd hc (List.not_mem_nil c)
  | cons a t =>
    rw [listMax]
    rcases List.mem_cons.mp hc with rfl | hc'
    · exact foldl_max_le_self t c
    · exact le_foldl_max t a c hc'

-- ======================================================================
-- The deletion phase of `clear_lines`
-- ======================================================================

theorem delRow_fold_eval (xs : List Int) (b : Board) (row x z : Int) :
    (xs.foldl (fun bb xx => if (bb (xx, row)).isSome then dictDel bb (xx, row) else bb) b)
        (x, z)
      = if z = row ∧ x ∈ xs then none else b (x, z) := by
  induction xs generalizing b with
  | nil => simp
  | cons x0 xs ih =>
    rw [List.foldl_cons, ih]
    have hb' : (if (b (x0, row)).isSome then dictDel b (x0, row) else b) (x, z)
        = if (x, z) = (x0, row) then none else b (x, z) := by
      by_cases hs : (b (x0, row)).isSome
      · rw [if_pos hs, dictDel]
      · rw [if_neg hs]
        by_cases he : (x, z) = (x0, row)
        · rw [if_pos he, he]
          exact Option.not_isSome_iff_eq_none.mp hs
        · rw [if_neg he]
    rw [hb']
    by_cases h1 : z = row ∧ x ∈ xs
    · rw [if_pos h1, if_pos ⟨h1.1, List.mem_cons_of_mem _ h1.2⟩]
    · rw [if_neg h1]
      by_cases h2 : (x, z) = (x0, row)
      · have hxz : x = x0 ∧ z = row := by rwa [Prod.mk.injEq] at h2
        rw [if_pos h2, if_pos ⟨hxz.2, hxz.1 ▸ List.mem_cons_self _ _⟩]
      · rw [if_neg h2, if_neg ?_]
        rintro ⟨hz, hm⟩
        rcases List.mem_cons.mp hm with rfl | hmem
        · exact h2 (by rw [hz])
        · exact h1 ⟨hz, hmem⟩

theorem delRow_eval (b : Board) (row x z : Int) :
    delRow b row (x, z)
      = if z = row ∧ (0 ≤ x ∧ x < COLUMNS) then none else b (x, z) := by
  rw [delRow, delRow_fold_eval]
  by_cases hx : x ∈ colList
  · by_cases hz : z = row
    · rw [if_pos ⟨hz, hx⟩, if_pos ⟨hz, mem_colList.mp hx⟩]
    · rw [if_neg (fun h => hz h.1), if_neg (fun h => hz h.1)]
  · rw [if_neg (fun h => hx h.2), if_neg (fun h => hx (mem_colList.mpr h.2))]

theorem delAll_eval (rows : List Int) (b : Board) (x z : Int) :
    (rows.foldl delRow b) (x, z)
      = if z ∈ rows ∧ (0 ≤ x ∧ x < COLUMNS) then none else b (x, z) := by
  induction rows generalizing b with
  | nil => simp
  | cons r rs ih =>
    rw [List.foldl_cons, ih, delRow_eval]
    by_cases h1 : z ∈ rs ∧ (0 ≤ x ∧ x < COLUMNS)
    · rw [if_pos h1, if_pos ⟨List.mem_cons_of_mem _ h1.1, h1.2⟩]
    · rw [if_neg h1]
      by_cases h2 : z = r ∧ (0 ≤ x ∧ x < COLUMNS)
      · rw [if_pos h2, if_pos ⟨h2.1 ▸ List.mem_cons_self _ _, h2.2⟩]
      · rw [if_neg h2, if_neg ?_]
        rintro ⟨hm, hx⟩
        rcases List.mem_cons.mp hm with rfl | hmem
        · exact h2 ⟨rfl, hx⟩
        · exact h1 ⟨hmem, hx⟩

-- ======================================================================
-- The shift phase of `clear_lines`
-- ======================================================================

theorem move_step_eval (b : Board) (x0 y d : Int) (hd : d ≠ 0) (x' z' : Int) :
    (match b (x0, y) with
      | some v => dictSet (dictDel b (x0, y)) (x0, y + d) v
      | none => b) (x', z')
    = if x' = x0 then
        (if z' = y then none
         else if z' = y + d then (if (b (x0, y)).isSome then b (x0, y) else b (x', z'))
         else b (x', z'))
      else b (x', z') := by
  cases hcase : b (x0, y) with
  | none =>
    simp only
    by_cases hx' : x' = x0
    · subst hx'
      rw [if_pos rfl]
      by_cases hz1 : z' = y
      · rw [if_pos hz1, hz1, hcase]
      · rw [if_neg hz1]
        by_cases hz2 : z' = y + d
        · rw [if_pos hz2]
          simp
        · rw [if_neg hz2]
    · rw [if_neg hx']
  | some v =>
    simp only
    have hset : (dictSet (dictDel b (x0, y)) (x0, y + d) v) (x', z')
        = if (x', z') = (x0, y + d) then some v
          else if (x', z') = (x0, y) then none else b (x', z') := by
      rw [dictSet, dictDel]
    rw [hset]
    by_cases hx' : x' = x0
    · subst hx'
      rw [if_pos rfl]
      by_cases hz1 : z' = y
      · subst hz1
        rw [if_neg (by rw [Prod.mk.injEq]; omega), if_pos rfl, if_pos rfl]
      · by_cases hz2 : z' = y + d
        · subst hz2
          rw [if_pos rfl, if_neg hz1, if_pos rfl]
          simp
        · rw [if_neg (by rw [Prod.mk.injEq]; omega),
            if_neg (by rw [Prod.mk.injEq]; omega), if_neg hz1, if_neg hz2]
    · rw [if_neg (by rw [Prod.mk.injEq]; omega), if_neg (by rw [Prod.mk.injEq]; omega),
        if_neg hx']

theorem move_fold_eval (xs : List Int) (b : Board) (y d : Int) (hd : d ≠ 0) (x z : Int) :
    (xs.foldl (fun bb xx =>
        match bb (xx, y) with
        | some v => dictSet (dictDel bb (xx, y)) (xx, y + d) v
        | none => bb) b) (x, z)
      = if x ∈ xs then
          (if z = y then none
           else if z = y + d then (if (b (x, y)).isSome then b (x, y) else b (x, z))
           else b (x, z))
        else b (x, z) := by
  induction xs generalizing b with
  | nil => simp
  | cons x0 xs ih =>
    rw [List.foldl_cons, ih]
    by_cases hx : x ∈ xs
    · by_cases hz1 : z = y
      · subst hz1
        simp [move_step_eval b x0 z d hd, hx]
      · by_cases hz2 : z = y + d
        · subst hz2
          have hyd : ¬(y + d = y) := by omega
          by_cases hxx : x = x0
          · subst hxx
            simp [move_step_eval b x y d hd, hx, hyd]
          · simp [move_step_eval b x0 y d hd, hx, hxx, hyd]
        · by_cases hxx : x = x0
          · subst hxx
            simp [move_step_eval b x y d hd, hx, hz1, hz2]
          · simp [move_step_eval b x0 y d hd, hx, hxx, hz1, hz2]
    · by_cases hxx : x = x0
      · subst hxx
        by_cases hz1 : z = y
        · subst hz1
          simp [move_step_eval b x z d hd, hx]
        · by_cases hz2 : z = y + d
          · subst hz2
            have hyd : ¬(y + d = y) := by omega
            simp [move_step_eval b x y d hd, hx, hyd]
          · simp [move_step_eval b x y d hd, hx, hz1, hz2]
      · simp [move_step_eval b x0 y d hd, hx, hxx]

theorem shiftRow_eval (S : List Int) (b : Board) (k x z : Int) :
    shiftRow S b k (x, z)
      = if 0 < (shiftOf S k : Int) then
          (if 0 ≤ x ∧ x < COLUMNS then
            (if z = k then none
             else if z = k + (shiftOf S k : Int) then
               (if (b (x, k)).isSome then b (x, k) else b (x, z))
             else b (x, z))
          else b (x, z))
        else b (x, z) := by
  rw [shiftRow]
  by_cases hs : 0 < (shiftOf S k : Int)
  · rw [if_pos hs, if_pos hs]
    rw [move_fold_eval colList b k (shiftOf S k : Int) (by omega) x z]
    by_cases hx : x ∈ colList
    · rw [if_pos hx, if_pos (mem_colList.mp hx)]
    · rw [if_neg hx, if_neg (fun h => hx (mem_colList.mpr h))]
  · rw [if_neg hs, if_neg hs]

theorem shiftRow_untouched (S : List Int) (b : Board) (k x z : Int)
    (hx : ¬(0 ≤ x ∧ x < COLUMNS)) : shiftRow S b k (x, z) = b (x, z) := by
  rw [shiftRow_eval]
  by_cases hs : 0 < (shiftOf S k : Int)
  · rw [if_pos hs, if_neg hx]
  · rw [if_neg hs]

theorem shift_fold_untouched (rows : List Int) (S : List Int) (b : Board) (x z : Int)
    (hx : ¬(0 ≤ x ∧ x < COLUMNS)) :
    (rows.foldl (shiftRow S) b) (x, z) = b (x, z) := by
  induction rows generalizing b with
  | nil => rfl
  | cons r rs ih =>
    rw [List.foldl_cons, ih, shiftRow_untouched _ _ _ _ _ hx]

/-- Invariant of the descending row-shift loop in `clear_lines`: after the rows
`≥ k` have been processed, on in-range columns the rows below `k` still hold
the post-deletion board, while each row `z ≥ k` holds exactly the content of
the unique unclear row `y ≥ k` whose destination `y + shift(y)` is `z` (and is
empty when no such row exists). -/
def ShiftInv (S : List Int) (b1 b : Board) (k : Int) : Prop :=
  ∀ x z : Int, 0 ≤ x → x < COLUMNS →
    ((z < k → b (x, z) = b1 (x, z)) ∧
     (k ≤ z →
       ((∃ y, k ≤ y ∧ y ∉ S ∧ y + (shiftOf S y : Int) = z ∧ b (x, z) = b1 (x, y)) ∨
        ((∀ y, k ≤ y → y ∉ S → y + (shiftOf S y : Int) ≠ z) ∧ b (x, z) = none))))

theorem shiftRow_inv_step (S : List Int) (b1 b : Board) (k : Int)
    (hnd : S.Nodup)
    (hdel : ∀ x c, 0 ≤ x → x < COLUMNS → c ∈ S → b1 (x, c) = none)
    (hmax : ∃ m ∈ S, k < m)
    (hinv : ShiftInv S b1 b (k + 1)) :
    ShiftInv S b1 (shiftRow S b k) k := by
  obtain ⟨m, hmS, hkm⟩ := hmax
  have hshift_pos : 0 < (shiftOf S k : Int) := by
    have := shiftOf_pos hmS hkm
    omega
  intro x z hx0 hx1
  have hxcol : 0 ≤ x ∧ x < COLUMNS := ⟨hx0, hx1⟩
  by_cases hkS : k ∈ S
  · -- row k was itself cleared: its cells are deleted, the move is a no-op
    have hbknone : b (x, k) = none := by
      rw [(hinv x k hx0 hx1).1 (by omega)]
      exact hdel x k hx0 hx1 hkS
    have hrow : shiftRow S b k (x, z) = b (x, z) := by
      rw [shiftRow_eval, if_pos hshift_pos, if_pos hxcol]
      by_cases hz1 : z = k
      · rw [if_pos hz1, hz1, hbknone]
      · rw [if_neg hz1]
        by_cases hz2 : z = k + (shiftOf S k : Int)
        · rw [if_pos hz2, hbknone]
          simp
        · rw [if_neg hz2]
    constructor
    · intro hzk
      rw [hrow]
      exact (hinv x z hx0 hx1).1 (by omega)
    · intro hkz
      rw [hrow]
      by_cases hzk : z = k
      · subst hzk
        right
        constructor
        · intro y hky hyS
          rcases eq_or_lt_of_le hky with rfl | hlt
          · exact absurd hkS hyS
          · omega
        · exact hbknone
      · rcases (hinv x z hx0 hx1).2 (by omega) with ⟨y, hy1, hy2, hy3, hy4⟩ | ⟨hno, hnone⟩
        · exact Or.inl ⟨y, by omega, hy2, hy3, hy4⟩
        · refine Or.inr ⟨?_, hnone⟩
          intro y hky hyS
          rcases eq_or_lt_of_le hky with rfl | hlt
          · exact absurd hkS hyS
          · exact hno y (by omega) hyS
  · -- row k survives: its cells move to k + shift k, which is free
    have hdest : b (x, k + (shiftOf S k : Int)) = none := by
      rcases (hinv x (k + (shiftOf S k : Int)) hx0 hx1).2 (by omega) with
        ⟨y, hy1, hy2, hy3, hy4⟩ | ⟨-, hnone⟩
      · exfalso
        have := shift_dest_mono hnd (show k < y by omega) hy2
        omega
      · exact hnone
    have hrow : ∀ z', shiftRow S b k (x, z')
        = if z' = k then none
          else if z' = k + (shiftOf S k : Int) then
            (if (b (x, k)).isSome then b (x, k) else b (x, z'))
          else b (x, z') := by
      intro z'
      rw [shiftRow_eval, if_pos hshift_pos, if_pos hxcol]
    constructor
    · intro hzk
      rw [hrow z, if_neg (by omega), if_neg (by omega)]
      exact (hinv x z hx0 hx1).1 (by omega)
    · intro hkz
      by_cases hz1 : z = k
      · subst hz1
        rw [hrow z, if_pos rfl]
        refine Or.inr ⟨?_, rfl⟩
        intro y hky hyS
        rcases eq_or_lt_of_le hky with rfl | hlt
        · omega
        · omega
      · by_cases hz2 : z = k + (shiftOf S k : Int)
        · subst hz2
          rw [hrow _, if_neg hz1, if_pos rfl]
          have hbk : b (x, k) = b1 (x, k) := (hinv x k hx0 hx1).1 (by omega)
          refine Or.inl ⟨k, le_refl k, hkS, rfl, ?_⟩
          by_cases hsome : (b (x, k)).isSome
          · rw [if_pos hsome, hbk]
          · rw [if_neg hsome, hdest, ← hbk]
            exact (Option.not_isSome_iff_eq_none.mp hsome).symm
        · rw [hrow z, if_neg hz1, if_neg hz2]
          rcases (hinv x z hx0 hx1).2 (by omega) with ⟨y, hy1, hy2, hy3, hy4⟩ | ⟨hno, hnone⟩
          · exact Or.inl ⟨y, by omega, hy2, hy3, hy4⟩
          · refine Or.inr ⟨?_, hnone⟩
            intro y hky hyS
            rcases eq_or_lt_of_le hky with rfl | hlt
            · omega
            · exact hno y (by omega) hyS

theorem shift_dest_unique (S : List Int) (hnd : S.Nodup) {y y' : Int}
    (hy : y ∉ S) (hy' : y' ∉ S)
    (he : y + (shiftOf S y : Int) = y' + (shiftOf S y' : Int)) : y = y' := by
  rcases lt_trichotomy y y' with h | h | h
  · have := shift_dest_mono hnd h hy'
    omega
  · exact h
  · have := shift_dest_mono hnd h hy
    omega

theorem shift_inv_init (S : List Int) (b1 : Board)
    (hdel : ∀ x c, 0 ≤ x → x < COLUMNS → c ∈ S → b1 (x, c) = none)
    (hne : S ≠ []) :
    ShiftInv S b1 b1 (listMax S) := by
  intro x z hx0 hx1
  refine ⟨fun _ => rfl, fun hz => ?_⟩
  by_cases hzS : z ∈ S
  · refine Or.inr ⟨?_, hdel x z hx0 hx1 hzS⟩
    intro y hky hyS heq
    have hmaxmem := listMax_mem hne
    have hy_gt : listMax S < y := by
      rcases eq_or_lt_of_le hky with rfl | h
      · exact absurd hmaxmem hyS
      · exact h
    have hz0 : shiftOf S y = 0 := shiftOf_eq_zero fun c hc => by
      have := le_listMax hc
      omega
    rw [hz0] at heq
    simp only [Nat.cast_zero, add_zero] at heq
    exact hyS (heq ▸ hzS)
  · have hz0 : shiftOf S z = 0 := shiftOf_eq_zero fun c hc => by
      have := le_listMax hc
      omega
    exact Or.inl ⟨z, hz, hzS, by rw [hz0]; simp, rfl⟩

theorem shift_fold_inv (S : List Int) (b1 : Board)
    (hnd : S.Nodup)
    (hdel : ∀ x c, 0 ≤ x → x < COLUMNS → c ∈ S → b1 (x, c) = none)
    (hmem : listMax S ∈ S) :
    ∀ (n : Nat), (n : Int) ≤ listMax S → ∀ b, ShiftInv S b1 b (n : Int) →
      ShiftInv S b1 ((((List.range n).map Int.ofNat).reverse).foldl (shiftRow S) b) 0 := by
  intro n
  induction n with
  | zero =>
    intro _ b hinv
    simpa using hinv
  | succ n ih =>
    intro hle b hinv
    rw [List.range_succ, List.map_append, List.reverse_append]
    simp only [List.map_cons, List.map_nil, List.reverse_cons, List.reverse_nil,
      List.nil_append, List.singleton_append, List.foldl_cons]
    apply ih (by omega)
    apply shiftRow_inv_step S b1 b (n : Int) hnd hdel
    · exact ⟨listMax S, hmem, by omega⟩
    · have hcast : ((n + 1 : Nat) : Int) = (n : Int) + 1 := by push_cast; ring
      rw [← hcast]
      exact hinv

-- ======================================================================
-- The cleared-row list and the assembled `clear_lines` characterization
-- ======================================================================

/-- `lines_to_clear` as computed by `clear_lines` on `make_grid locked`. -/
def fullRows (locked : Board) : List Int :=
  rowList.filter fun y => colList.all fun x => (make_grid locked y x).isSome

theorem fullRows_nodup (locked : Board) : (fullRows locked).Nodup :=
  rowList_nodup.filter _

theorem fullRows_range (locked : Board) : ∀ c ∈ fullRows locked, 0 ≤ c ∧ c < ROWS :=
  fun _ hc => mem_rowList.mp (List.mem_filter.mp hc).1

theorem mem_fullRows {locked : Board} {c : Int} :
    c ∈ fullRows locked ↔
      (0 ≤ c ∧ c < ROWS)
      ∧ ∀ x, 0 ≤ x → x < COLUMNS → (locked (x, c)).isSome = true := by
  rw [fullRows, List.mem_filter, mem_rowList]
  constructor
  · rintro ⟨hrow, hall⟩
    refine ⟨hrow, fun x hx0 hx1 => ?_⟩
    have := List.all_eq_true.mp hall x (mem_colList.mpr ⟨hx0, hx1⟩)
    rwa [make_grid, if_pos ⟨hrow.1, hrow.2, hx0, hx1⟩] at this
  · rintro ⟨hrow, hall⟩
    refine ⟨hrow, List.all_eq_true.mpr fun x hx => ?_⟩
    have hxc := mem_colList.mp hx
    rw [make_grid, if_pos ⟨hrow.1, hrow.2, hxc.1, hxc.2⟩]
    exact hall x hxc.1 hxc.2

theorem clear_lines_eval (locked : Board) :
    clear_lines (make_grid locked) locked
      = if fullRows locked = [] then (0, locked)
        else ((fullRows locked).length,
          ((rowList.filter fun r => r < listMax (fullRows locked)).reverse).foldl
            (shiftRow (fullRows locked))
            ((fullRows locked).reverse.foldl delRow locked)) := rfl

theorem afterDel_eval (locked : Board) (x z : Int) :
    ((fullRows locked).reverse.foldl delRow locked) (x, z)
      = if z ∈ fullRows locked ∧ (0 ≤ x ∧ x < COLUMNS) then none else locked (x, z) := by
  rw [delAll_eval]
  by_cases h : z ∈ fullRows locked ∧ (0 ≤ x ∧ x < COLUMNS)
  · rw [if_pos ⟨List.mem_reverse.mpr h.1, h.2⟩, if_pos h]
  · rw [if_neg (fun hc => h ⟨List.mem_reverse.mp hc.1, hc.2⟩), if_neg h]

theorem range_filter_lt (N k : Nat) (h : k ≤ N) :
    (List.range N).filter (fun n => n < k) = List.range k := by
  induction N with
  | zero =>
    have : k = 0 := by omega
    subst this
    rfl
  | succ N ih =>
    rcases eq_or_lt_of_le h with rfl | hlt
    · apply List.filter_eq_self.mpr
      intro a ha
      rw [List.mem_range] at ha
      simpa using ha
    · rw [List.range_succ, List.filter_append, ih (by omega)]
      have hN : List.filter (fun n => decide (n < k)) [N] = [] := by
        simp
        omega
      rw [hN, List.append_nil]

theorem rowList_filter_lt (m : Int) (h0 : 0 ≤ m) (h1 : m ≤ ROWS) :
    rowList.filter (fun r => r < m) = (List.range m.toNat).map Int.ofNat := by
  rw [rowList, List.filter_map]
  rw [show (List.range ROWS.toNat).filter ((fun r => decide (r < m)) ∘ Int.ofNat)
      = (List.range ROWS.toNat).filter (fun n => n < m.toNat) from ?_]
  · rw [range_filter_lt _ _ (by rw [ROWS_eq] at h1 ⊢; omega)]
  · apply List.filter_congr
    intro a _
    simp only [Function.comp, Int.ofNat_eq_coe]
    rcases Nat.lt_or_ge a m.toNat with hc | hc
    · rw [decide_eq_true (show (a : Int) < m by omega), decide_eq_true hc]
    · rw [decide_eq_false (show ¬(a : Int) < m by omega), decide_eq_false (by omega)]

theorem clear_lines_final_inv (locked : Board) (hne : fullRows locked ≠ []) :
    ShiftInv (fullRows locked) ((fullRows locked).reverse.foldl delRow locked)
      (clear_lines (make_grid locked) locked).2 0 := by
  have hnd := fullRows_nodup locked
  have hS := fullRows_range locked
  have hdel : ∀ x c, 0 ≤ x → x < COLUMNS → c ∈ fullRows locked →
      ((fullRows locked).reverse.foldl delRow locked) (x, c) = none := by
    intro x c hx0 hx1 hc
    rw [afterDel_eval, if_pos ⟨hc, hx0, hx1⟩]
  have hmaxmem := listMax_mem hne
  have hmax0 : 0 ≤ listMax (fullRows locked) := (hS _ hmaxmem).1
  have hmaxR : listMax (fullRows locked) < ROWS := (hS _ hmaxmem).2
  have hres : (clear_lines (make_grid locked) locked).2
      = (((List.range (listMax (fullRows locked)).toNat).map Int.ofNat).reverse).foldl
          (shiftRow (fullRows locked)) ((fullRows locked).reverse.foldl delRow locked) := by
    rw [clear_lines_eval, if_neg hne]
    simp only
    rw [rowList_filter_lt (listMax (fullRows locked)) hmax0 (by omega)]
  rw [hres]
  apply shift_fold_inv (fullRows locked) _ hnd hdel hmaxmem
      (listMax (fullRows locked)).toNat (by omega)
  have hcast : (((listMax (fullRows locked)).toNat : Nat) : Int)
      = listMax (fullRows locked) := Int.toNat_of_nonneg hmax0
  rw [hcast]
  exact shift_inv_init (fullRows locked) _ hdel hne

/-- A surviving in-range cell ends up shifted down by the number of cleared
rows strictly below it, with its color preserved. -/
theorem clear_lines_survivor (locked : Board) (hne : fullRows locked ≠ [])
    {x y : Int} {c : Color} (hx : 0 ≤ x ∧ x < COLUMNS) (hy0 : 0 ≤ y)
    (hyS : y ∉ fullRows locked) (hv : locked (x, y) = some c) :
    (clear_lines (make_grid locked) locked).2
        (x, y + (shiftOf (fullRows locked) y : Int)) = some c := by
  have hfin := clear_lines_final_inv locked hne
  have hz0 : (0 : Int) ≤ y + (shiftOf (fullRows locked) y : Int) := by omega
  rcases (hfin x _ hx.1 hx.2).2 hz0 with ⟨y', hy'1, hy'2, hy'3, hy'4⟩ | ⟨hno, -⟩
  · have hyy : y' = y := shift_dest_unique _ (fullRows_nodup locked) hy'2 hyS hy'3
    rw [hy'4, hyy, afterDel_eval, if_neg (fun hcon => hyS hcon.1)]
    exact hv
  · exact absurd rfl (hno y hy0 hyS)

/-- Cells at negative rows are left in place by `clear_lines`. -/
theorem clear_lines_negative_rows (locked : Board) {x z : Int} (hz : z < 0) :
    (clear_lines (make_grid locked) locked).2 (x, z) = locked (x, z) := by
  by_cases hne : fullRows locked = []
  · rw [clear_lines_eval, if_pos hne]
  · by_cases hx : 0 ≤ x ∧ x < COLUMNS
    · have hfin := clear_lines_final_inv locked hne
      rw [(hfin x z hx.1 hx.2).1 hz, afterDel_eval,
        if_neg (fun hcon => by have := fullRows_range locked z hcon.1; omega)]
    · rw [clear_lines_eval, if_neg hne]
      simp only
      rw [shift_fold_untouched _ _ _ _ _ hx, delAll_eval,
        if_neg (fun hcon => hx hcon.2)]

/-- Every occupied cell of the result at a nonnegative row on an in-range
column is the shifted image of a unique surviving source cell. -/
theorem clear_lines_complete (locked : Board) (hne : fullRows locked ≠ [])
    {x z : Int} {c : Color} (hx : 0 ≤ x ∧ x < COLUMNS) (hz0 : 0 ≤ z)
    (hres : (clear_lines (make_grid locked) locked).2 (x, z) = some c) :
    ∃ y, 0 ≤ y ∧ y ∉ fullRows locked ∧ locked (x, y) = some c
      ∧ z = y + (shiftOf (fullRows locked) y : Int) := by
  have hfin := clear_lines_final_inv locked hne
  rcases (hfin x z hx.1 hx.2).2 hz0 with ⟨y, hy1, hy2, hy3, hy4⟩ | ⟨-, hnone⟩
  · rw [hres] at hy4
    rw [afterDel_eval, if_neg (fun hcon => hy2 hcon.1)] at hy4
    exact ⟨y, hy1, hy2, hy4.symm, hy3.symm⟩
  · rw [hres] at hnone
    exact absurd hnone (by simp)

/-- **C1 (amended)** — for every occupancy mapping satisfying the Board
invariant (keys have column in `[0, COLUMNS)` and row `< ROWS`): the call
returns the number of fully occupied rows; every surviving occupied cell at a
row `≥ 0` shifts down by exactly the number of cleared rows with strictly
greater row index, even across multiple non-adjacent clears; cells stored at
negative rows are left in place (not shifted, as the unamended claim would
require); every occupied cell of the result at a row `≥ 0` is the shifted
image of a unique surviving cell (so the cleared rows are removed); and when
no row is fully occupied the call returns 0 with the mapping unchanged. -/
theorem claim1_clear_lines_characterization (locked : Board)
    (Hcol : ∀ x y : Int, ((locked (x, y)).isSome = true) →
      (0 ≤ x ∧ x < COLUMNS) ∧ y < ROWS) :
    ((clear_lines (make_grid locked) locked).1 = (fullRows locked).length)
    ∧ (∀ x y : Int, ∀ c : Color, locked (x, y) = some c → 0 ≤ y →
        y ∉ fullRows locked →
        (clear_lines (make_grid locked) locked).2
          (x, y + (shiftOf (fullRows locked) y : Int)) = some c)
    ∧ (∀ x y : Int, ∀ c : Color, locked (x, y) = some c → y < 0 →
        (clear_lines (make_grid locked) locked).2 (x, y) = some c)
    ∧ (∀ x z : Int, ∀ c : Color,
        (clear_lines (make_grid locked) locked).2 (x, z) = some c → 0 ≤ z →
        ∃ y, 0 ≤ y ∧ y ∉ fullRows locked ∧ locked (x, y) = some c
          ∧ z = y + (shiftOf (fullRows locked) y : Int))
    ∧ (fullRows locked = [] → clear_lines (make_grid locked) locked = (0, locked)) := by
  refine ⟨?_, ?_, ?_, ?_, ?_⟩
  · rw [clear_lines_eval]
    by_cases hne : fullRows locked = []
    · rw [if_pos hne, hne]
      rfl
    · rw [if_neg hne]
  · intro x y c hv hy0 hyS
    by_cases hne : fullRows locked = []
    · rw [clear_lines_eval, if_pos hne, hne]
      rw [show shiftOf [] y = 0 from rfl]
      simpa using hv
    · have hx : 0 ≤ x ∧ x < COLUMNS := (Hcol x y (by rw [hv]; rfl)).1
      exact clear_lines_survivor locked hne hx hy0 hyS hv
  · intro x y c hv hy
    rw [clear_lines_negative_rows locked hy]
    exact hv
  · intro x z c hres hz0
    by_cases hne : fullRows locked = []
    · rw [clear_lines_eval, if_pos hne] at hres
      refine ⟨z, hz0, by rw [hne]; exact List.not_mem_nil z, hres, ?_⟩
      rw [hne, show shiftOf [] z = 0 from rfl]
      simp
    · by_cases hx : 0 ≤ x ∧ x < COLUMNS
      · exact clear_lines_complete locked hne hx hz0 hres
      · exfalso
        rw [clear_lines_eval, if_neg hne] at hres
        simp only at hres
        rw [shift_fold_untouched _ _ _ _ _ hx, delAll_eval,
          if_neg (fun hcon => hx hcon.2)] at hres
        exact hx (Hcol x z (by rw [hres]; rfl)).1
  · intro h
    rw [clear_lines_eval, if_pos h]

/-- A board with row 19 fully occupied and one extra cell at (0, 18). -/
def rowFullBoard : Board := fun p =>
  if p.2 = 19 ∧ 0 ≤ p.1 ∧ p.1 < 10 then some (1, 1, 1)
  else if p = (0, 18) then some (2, 2, 2) else none

theorem rowFullBoard_cols : ∀ x y : Int, ((rowFullBoard (x, y)).isSome = true) →
    (0 ≤ x ∧ x < COLUMNS) ∧ y < ROWS := by
  intro x y h
  simp only [rowFullBoard] at h
  split_ifs at h with h1 h2
  · rw [COLUMNS_eq, ROWS_eq]
    omega
  · rw [Prod.mk.injEq] at h2
    rw [COLUMNS_eq, ROWS_eq]
    omega
  · exact absurd h (by simp)

/-- Witness for C1: the amended characterization instantiated on a board whose
row 19 is full with a survivor at (0, 18). -/
theorem claim1_witness :
    (∀ x y : Int, ((rowFullBoard (x, y)).isSome = true) →
      (0 ≤ x ∧ x < COLUMNS) ∧ y < ROWS)
    ∧ (((clear_lines (make_grid rowFullBoard) rowFullBoard).1
          = (fullRows rowFullBoard).length)
      ∧ (∀ x y : Int, ∀ c : Color, rowFullBoard (x, y) = some c → 0 ≤ y →
          y ∉ fullRows rowFullBoard →
          (clear_lines (make_grid rowFullBoard) rowFullBoard).2
            (x, y + (shiftOf (fullRows rowFullBoard) y : Int)) = some c)
      ∧ (∀ x y : Int, ∀ c : Color, rowFullBoard (x, y) = some c → y < 0 →
          (clear_lines (make_grid rowFullBoard) rowFullBoard).2 (x, y) = some c)
      ∧ (∀ x z : Int, ∀ c : Color,
          (clear_lines (make_grid rowFullBoard) rowFullBoard).2 (x, z) = some c → 0 ≤ z →
          ∃ y, 0 ≤ y ∧ y ∉ fullRows rowFullBoard ∧ rowFullBoard (x, y) = some c
            ∧ z = y + (shiftOf (fullRows rowFullBoard) y : Int))
      ∧ (fullRows rowFullBoard = [] →
          clear_lines (make_grid rowFullBoard) rowFullBoard = (0, rowFullBoard))) :=
  ⟨rowFullBoard_cols, claim1_clear_lines_characterization rowFullBoard rowFullBoard_cols⟩

/-- A board with row 0 fully occupied and one cell in the spawn buffer
at (0, -1). -/
def negRowBoard : Board := fun p =>
  if p.2 = 0 ∧ 0 ≤ p.1 ∧ p.1 < 10 then some (1, 1, 1)
  else if p = (0, -1) then some (2, 2, 2) else none

/-- Counterexample to **C1** as stated: on a spec-legal mapping holding a cell
at the negative row −1 (spawn buffer) above the full row 0, the call clears
one row, but the surviving occupied cell at (0, −1) — whose shift amount per
the claim is 1, since cleared row 0 has strictly greater index — is NOT moved
to (0, 0): the code leaves it at (0, −1) and row 0 stays empty. -/
theorem claim1_counterexample :
    negRowBoard (0, -1) = some (2, 2, 2)
    ∧ (-1 : Int) ∉ fullRows negRowBoard
    ∧ shiftOf (fullRows negRowBoard) (-1) = 1
    ∧ (clear_lines (make_grid negRowBoard) negRowBoard).1 = 1
    ∧ (clear_lines (make_grid negRowBoard) negRowBoard).2 (0, -1 + 1) = none
    ∧ (clear_lines (make_grid negRowBoard) negRowBoard).2 (0, -1) = some (2, 2, 2) :=
  ⟨by decide, by decide, by decide, by decide, by decide, by decide⟩

-- ======================================================================
-- The in-range key invariant
-- ======================================================================

/-- Every key of the occupancy mapping has column in `[0, COLUMNS)` and row in
`[0, ROWS)`. -/
def InRange (b : Board) : Prop :=
  ∀ x y : Int, ((b (x, y)).isSome = true) → (0 ≤ x ∧ x < COLUMNS) ∧ (0 ≤ y ∧ y < ROWS)

theorem clear_lines_preserves_InRange (b : Board) (h : InRange b) :
    InRange (clear_lines (make_grid b) b).2 := by
  intro x z hz
  by_cases hne : fullRows b = []
  · rw [clear_lines_eval, if_pos hne] at hz
    exact h x z hz
  · by_cases hx : 0 ≤ x ∧ x < COLUMNS
    · by_cases hzneg : z < 0
      · rw [clear_lines_negative_rows b hzneg] at hz
        have hk := h x z hz
        omega
      · obtain ⟨c, hc⟩ := Option.isSome_iff_exists.mp hz
        obtain ⟨y, hy0, hyS, hv, hzeq⟩ := clear_lines_complete b hne hx (by omega) hc
        have hyr := h x y (by rw [hv]; rfl)
        have hbound := shiftOf_le_of_bound (fullRows_nodup b) (y := y) (B := ROWS - 1)
          (fun r hr => by have := fullRows_range b r hr; omega)
        refine ⟨hx, by omega, by omega⟩
    · rw [clear_lines_eval, if_neg hne] at hz
      simp only at hz
      rw [shift_fold_untouched _ _ _ _ _ hx, delAll_eval,
        if_neg (fun hcon => hx hcon.2)] at hz
      exact absurd (h x z hz).1 hx

theorem merge_preserves_InRange (s : GameState) (h : InRange s.locked)
    (hvalid : valid_space s.current.shape s.current.x s.current.y s.locked = true) :
    InRange (lockMerged s).1 := by
  intro x y hy
  rw [lockMerged, merge_board_eval] at hy
  by_cases hc : (x, y) ∈ shape_cells s.current.shape s.current.x s.current.y ∧ 0 ≤ y
  · have hcell := (valid_space_iff _ _ _ _ |>.mp hvalid) _ hc.1
    exact ⟨⟨hcell.1, hcell.2.1⟩, hc.2, hcell.2.2.1⟩
  · rw [if_neg hc] at hy
    exact h x y hy

/-- **C9** — every key of the occupancy mapping has column in `[0, COLUMNS)`
and row in `[0, ROWS)` (no negative row is ever stored), and this is preserved
by resetting the session and by locking a piece (which merges it and clears
rows), given that the locked piece sits at a position accepted by
`valid_space`. -/
theorem claim9_keys_in_range :
    (∀ bag : Nat → PieceType, InRange (reset bag).locked)
    ∧ (∀ s : GameState, InRange s.locked →
        valid_space s.current.shape s.current.x s.current.y s.locked = true →
        InRange (lock_piece s).locked) := by
  constructor
  · intro bag x y h
    exact absurd h (by simp [reset])
  · intro s hIR hv
    have hm := merge_preserves_InRange s hIR hv
    have hclear := clear_lines_preserves_InRange (lockMerged s).1 hm
    rw [lock_piece_eq]
    exact hclear

/-- Witness for C9: the reset session has in-range keys, and locking the O
piece resting on the floor of the empty board preserves the invariant. -/
theorem claim9_witness :
    InRange (reset (fun _ => O)).locked
    ∧ InRange
        (lock_piece (testState (fun _ => none)
          { type := O, rotation := 0, x := 4, y := 18 })).locked :=
  ⟨claim9_keys_in_range.1 (fun _ => O),
   claim9_keys_in_range.2 (testState (fun _ => none)
      { type := O, rotation := 0, x := 4, y := 18 })
      (fun x y h => absurd h (by simp [testState])) (by decide)⟩

-- ======================================================================
-- Scoring, level, and fall interval
-- ======================================================================

/-- **C6** — when a lock clears `n ≥ 1` rows, the score grows by exactly the
table value `{1: 40, 2: 100, 3: 300, 4: 1200}` for `n` times the level in
effect before the update, the line count grows by `n`, the level is recomputed
as `⌊totalLines/10⌋ + 1` and the fall interval as
`max(minInterval, baseInterval − (level−1)·step)` — a function of the level
that is monotonically non-increasing and floored at the minimum; a lock that
clears no rows changes none of score, lines, level, or fall interval. -/
theorem claim6_scoring_and_level (s : GameState) :
    (score_table 1 = 40 ∧ score_table 2 = 100 ∧ score_table 3 = 300
      ∧ score_table 4 = 1200)
    ∧ (1 ≤ (lockCleared s).1 →
        (lock_piece s).score = s.score + score_table (lockCleared s).1 * s.level
        ∧ (lock_piece s).lines = s.lines + (lockCleared s).1
        ∧ (lock_piece s).level = (s.lines + (lockCleared s).1) / 10 + 1
        ∧ (lock_piece s).fall_speed = fall_speed_of ((s.lines + (lockCleared s).1) / 10 + 1))
    ∧ ((lockCleared s).1 = 0 →
        (lock_piece s).score = s.score ∧ (lock_piece s).lines = s.lines
        ∧ (lock_piece s).level = s.level ∧ (lock_piece s).fall_speed = s.fall_speed)
    ∧ (∀ l1 l2 : Nat, l1 ≤ l2 → fall_speed_of l2 ≤ fall_speed_of l1)
    ∧ (∀ l : Nat, 1 / 20 ≤ fall_speed_of l) := by
  refine ⟨⟨rfl, rfl, rfl, rfl⟩, ?_, ?_, ?_, ?_⟩
  · intro h
    rw [lock_piece_eq]
    dsimp only
    split_ifs with hc
    · exact ⟨rfl, rfl, rfl, rfl⟩
    · omega
  · intro h
    rw [lock_piece_eq]
    dsimp only
    split_ifs with hc
    · omega
    · exact ⟨rfl, rfl, rfl, rfl⟩
  · intro l1 l2 h
    rw [fall_speed_of, fall_speed_of]
    apply max_le_max (le_refl _)
    have hcast : (l1 : ℚ) ≤ (l2 : ℚ) := Nat.cast_le.mpr h
    nlinarith
  · intro l
    rw [fall_speed_of]
    exact le_max_left _ _

/-- A board with row 19 occupied in columns 0..7. -/
def clearBoard : Board := fun p =>
  if p.2 = 19 ∧ 0 ≤ p.1 ∧ p.1 < 8 then some (1, 1, 1) else none

/-- A lock completing row 19 (O piece at columns 8–9, rows 18–19). -/
def sClear : GameState := testState clearBoard { type := O, rotation := 0, x := 8, y := 18 }

/-- A lock clearing nothing (O piece on the floor of the empty board). -/
def sNoClear : GameState :=
  testState (fun _ => none) { type := O, rotation := 0, x := 4, y := 18 }

/-- Witness for C6: a single-row clear at level 1 and a no-clear lock. -/
theorem claim6_witness :
    (1 ≤ (lockCleared sClear).1
      ∧ ((lock_piece sClear).score
            = sClear.score + score_table (lockCleared sClear).1 * sClear.level
        ∧ (lock_piece sClear).lines = sClear.lines + (lockCleared sClear).1
        ∧ (lock_piece sClear).level = (sClear.lines + (lockCleared sClear).1) / 10 + 1
        ∧ (lock_piece sClear).fall_speed
            = fall_speed_of ((sClear.lines + (lockCleared sClear).1) / 10 + 1)))
    ∧ ((lockCleared sNoClear).1 = 0
      ∧ ((lock_piece sNoClear).score = sNoClear.score
        ∧ (lock_piece sNoClear).lines = sNoClear.lines
        ∧ (lock_piece sNoClear).level = sNoClear.level
        ∧ (lock_piece sNoClear).fall_speed = sNoClear.fall_speed)) :=
  ⟨⟨by decide, (claim6_scoring_and_level sClear).2.1 (by decide)⟩,
   ⟨by decide, (claim6_scoring_and_level sNoClear).2.2.1 (by decide)⟩⟩
